import Mathlib

/-!
Verification of the micrograd scalar autodiff engine (micrograd/engine.py).

Modelling conventions (shallow embedding):

* Python floats are modelled by exact rationals.  All numeric facts below are
  facts of this exact-arithmetic semantics; floating-point rounding is outside
  the model, but the finite-difference truncation error (order hstep) that the
  claims hinge on is captured exactly.
* A Value object is one slot of an arena: a graph is a list of nodes, a node
  stores its forward data and the operation (with operand indices) that
  produced it.  Object identity in Python becomes index equality; the
  construction rule of the engine (an operation only references previously
  built Value objects) becomes: every operand index of node v is < v (WF).
* The mutable grad fields form a state, Grads : Nat -> Rat.  Closures become
  the step function stepBackward, which is invoked with the process-wide
  do_autograd flag at call time, exactly like the Python closures that read
  the class attribute self.do_autograd when they run.
* set(_children) is modelled by List.dedup of the operand list; Python set
  iteration order is unspecified, dedup fixes one admissible order (gradient
  sums are order-independent, and the topological-order theorems below hold
  for the fixed order).
* math.exp and math.log are kept abstract as parameters E and L; the claims
  settled numerically only involve add, mul, pow and relu, which are exact.
-/

namespace Micrograd

/-- The grad fields of all Value objects: index -> current gradient. -/
abbrev Grads := Nat → ℚ

/-- Value.h = 0.00000001, the finite-difference step. -/
def hstep : ℚ := 1 / 100000000

/-- Value.do_autograd = True: the initial (default) value of the class-level
gradient-strategy flag.  true selects the finite-difference branch of each
closure, false the closed-form branch. -/
def doAutogradDefault : Bool := true

/-- The operation recorded in a node: which operator produced it and the
arena indices of the operand Value objects it captured. -/
inductive Op where
  | leaf
  | addv (i j : Nat)
  | mulv (i j : Nat)
  | powi (i : Nat) (p : ℤ)
  | reluv (i : Nat)
  | tanhv (i : Nat)
  | sigmoidv (i : Nat)
  | softplusv (i : Nat)
  | expv (i : Nat)
deriving DecidableEq

/-- The operand objects captured by an operation (the _children tuple). -/
def Op.children : Op → List Nat
  | .leaf => []
  | .addv i j => [i, j]
  | .mulv i j => [i, j]
  | .powi i _ => [i]
  | .reluv i => [i]
  | .tanhv i => [i]
  | .sigmoidv i => [i]
  | .softplusv i => [i]
  | .expv i => [i]

/-- One Value object: its forward data and the operation that produced it
(grad lives in the separate Grads state). -/
structure GraphNode where
  data : ℚ
  op : Op

/-- The arena of Value objects built so far; a node may only reference
earlier nodes. -/
abbrev Graph := List GraphNode

/-- Operation of node v (leaf when v is out of range). -/
def opOf (g : Graph) (v : Nat) : Op := ((g.get? v).map GraphNode.op).getD .leaf

/-- Forward data of node v (0 when v is out of range). -/
def dataOf (g : Graph) (v : Nat) : ℚ := ((g.get? v).map GraphNode.data).getD 0

/-- self._prev = set(_children): the operand list with duplicates collapsed. -/
def prevList (g : Graph) (v : Nat) : List Nat := (opOf g v).children.dedup

/-- Construction invariant: every operand of node i was built before i. -/
def WF (g : Graph) : Prop := ∀ i, i < g.length → ∀ c ∈ prevList g i, c < i

instance (g : Graph) : Decidable (WF g) := Nat.decidableBallLT _ _

/-! ### Graph construction (the operator methods, forward half)

Each of __add__, __mul__, __pow__, relu computes the forward value from the
operands' data and appends a fresh node recording the operands. -/

/-- Value(data): wrap a plain number as a leaf node. -/
def mkValue (g : Graph) (x : ℚ) : Graph × Nat := (g ++ [⟨x, .leaf⟩], g.length)

/-- Value.__add__: out = Value(self.data + other.data, (self, other)). -/
def mkAdd (g : Graph) (i j : Nat) : Graph × Nat :=
  (g ++ [⟨dataOf g i + dataOf g j, .addv i j⟩], g.length)

/-- Value.__mul__: out = Value(self.data * other.data, (self, other)). -/
def mkMul (g : Graph) (i j : Nat) : Graph × Nat :=
  (g ++ [⟨dataOf g i * dataOf g j, .mulv i j⟩], g.length)

/-- Value.__pow__ after the isinstance assertion and the a.data ** b
evaluation both succeed: out = Value(self.data ** p, (self,)). -/
def mkPow (g : Graph) (i : Nat) (p : ℤ) : Graph × Nat :=
  (g ++ [⟨dataOf g i ^ p, .powi i p⟩], g.length)

/-- Value.relu: out = Value(max(0, self.data), (self,)). -/
def mkRelu (g : Graph) (i : Nat) : Graph × Nat :=
  (g ++ [⟨max 0 (dataOf g i), .reluv i⟩], g.length)

/-! ### Value.__pow__ error behaviour -/

/-- The argument Python passes as exponent: either a plain number or another
Value object (graph node).  Integer exponents suffice for the claims; Python
additionally accepts floats. -/
inductive PowExponent where
  | num (p : ℤ)
  | node (i : Nat)

/-- Errors Value.__pow__ can raise: the isinstance assertion (the spec calls
it UnsupportedOperand), and Python's ZeroDivisionError from 0 ** negative. -/
inductive EngineError where
  | unsupportedOperand
  | zeroDivision
deriving DecidableEq

/-- Value.__pow__ in full: assert isinstance(other, (int, float)) first, then
evaluate self.data ** other (ZeroDivisionError when self.data == 0 and the
exponent is negative), and only then allocate the result node. -/
def powOp (g : Graph) (i : Nat) (e : PowExponent) : Except EngineError (Graph × Nat) :=
  match e with
  | .node _ => .error .unsupportedOperand
  | .num p =>
      if dataOf g i = 0 ∧ p < 0 then .error .zeroDivision
      else .ok (mkPow g i p)

/-! ### The _autograd finite-difference helper

Value._autograd(func, args, wrt) replaces every argument that is the same
object as wrt by a fresh Value holding arg.data + h, applies func to both
tuples and multiplies the difference by h ** -1.  Object identity is index
equality, so every occurrence of the wrt index is perturbed. -/

/-- Forward function of __mul__ as a function of the argument data list. -/
def mulF : List ℚ → ℚ := fun l => l.getD 0 0 * l.getD 1 0

/-- Forward function of __pow__ (the numeric exponent is not an argument
object, so it is never perturbed). -/
def powF (p : ℤ) : List ℚ → ℚ := fun l => l.getD 0 0 ^ p

/-- Forward function of relu. -/
def reluF : List ℚ → ℚ := fun l => max 0 (l.getD 0 0)

/-- Forward function of tanh, with E standing for math.exp. -/
def tanhF (E : ℚ → ℚ) : List ℚ → ℚ :=
  fun l => (E (2 * l.getD 0 0) - 1) / (E (2 * l.getD 0 0) + 1)

/-- Forward function of sigmoid: (1 + exp(-x)) ** -1. -/
def sigmoidF (E : ℚ → ℚ) : List ℚ → ℚ := fun l => (1 + E (-l.getD 0 0))⁻¹

/-- Forward function of softplus: log(1 + exp(x)), with L for math.log. -/
def softplusF (E L : ℚ → ℚ) : List ℚ → ℚ := fun l => L (1 + E (l.getD 0 0))

/-- Forward function of exp. -/
def expF (E : ℚ → ℚ) : List ℚ → ℚ := fun l => E (l.getD 0 0)

/-- Value._autograd: (func(args with every occurrence of wrt perturbed by h)
- func(args)) * h ** -1. -/
def fdOf (F : List ℚ → ℚ) (args : List Nat) (wrt : Nat) (d : Nat → ℚ) : ℚ :=
  (F (args.map fun a => if a = wrt then d a + hstep else d a) - F (args.map d))
    * hstep⁻¹

/-! ### The _backward closures -/

/-- x.grad += a, as a state update. -/
def bumpGrad (st : Grads) (i : Nat) (a : ℚ) : Grads :=
  Function.update st i (st i + a)

/-- The _backward closure of node v, invoked with the process-wide flag value
at call time.  Each branch transcribes the corresponding closure body in
engine.py line by line; sequential += updates are kept sequential so that
aliased operands (self is other) accumulate twice, as in Python. -/
def stepBackward (E L : ℚ → ℚ) (g : Graph) (flag : Bool) (st : Grads) (v : Nat) : Grads :=
  match opOf g v with
  | .leaf => st
  | .addv i j =>
      -- __add__ attaches a closure with no do_autograd branch:
      -- self.grad += out.grad; other.grad += out.grad
      let s1 := bumpGrad st i (st v)
      bumpGrad s1 j (s1 v)
  | .mulv i j =>
      if flag then
        let s1 := bumpGrad st i (fdOf mulF [i, j] i (dataOf g) * st v)
        bumpGrad s1 j (fdOf mulF [i, j] j (dataOf g) * s1 v)
      else
        let s1 := bumpGrad st i (dataOf g j * st v)
        bumpGrad s1 j (dataOf g i * s1 v)
  | .powi i p =>
      if flag then bumpGrad st i (fdOf (powF p) [i] i (dataOf g) * st v)
      else bumpGrad st i ((p : ℚ) * dataOf g i ^ (p - 1) * st v)
  | .reluv i =>
      if flag then bumpGrad st i (fdOf reluF [i] i (dataOf g) * st v)
      else bumpGrad st i ((if 0 < dataOf g i then (1 : ℚ) else 0) * st v)
  | .tanhv i =>
      if flag then bumpGrad st i (fdOf (tanhF E) [i] i (dataOf g) * st v)
      else bumpGrad st i ((1 - dataOf g v ^ 2) * st v)
  | .sigmoidv i =>
      if flag then bumpGrad st i (fdOf (sigmoidF E) [i] i (dataOf g) * st v)
      else bumpGrad st i (dataOf g v * (1 - dataOf g v) * st v)
  | .softplusv i =>
      if flag then bumpGrad st i (fdOf (softplusF E L) [i] i (dataOf g) * st v)
      else bumpGrad st i (sigmoidF E [dataOf g i] * st v)
  | .expv i =>
      if flag then bumpGrad st i (fdOf (expF E) [i] i (dataOf g) * st v)
      else bumpGrad st i (dataOf g v * st v)

/-! ### Value.backward: DFS post-order topological sort, then the loop -/

/-- build_topo: depth-first post-order with a visited set; state is
(visited, topo).  Python's recursion is unbounded; fuel makes it structural,
and fuel > v always suffices because operands have smaller indices. -/
def dfsAux (g : Graph) : Nat → Nat → List Nat × List Nat → List Nat × List Nat
  | 0, _, st => st
  | fuel + 1, v, st =>
      if v ∈ st.1 then st
      else
        let st2 := (prevList g v).foldl (fun s c => dfsAux g fuel c s) (v :: st.1, st.2)
        (st2.1, st2.2 ++ [v])

/-- topo after build_topo(self) from empty visited set and empty list. -/
def topoList (g : Graph) (r : Nat) : List Nat := (dfsAux g (r + 1) r ([], [])).2

/-- Value.backward: build topo, assign self.grad = 1.0, then invoke each
node's _backward in reverse topological order. -/
def backward (E L : ℚ → ℚ) (g : Graph) (flag : Bool) (st : Grads) (r : Nat) : Grads :=
  (topoList g r).reverse.foldl (stepBackward E L g flag) (Function.update st r 1)

/-- Fresh Value objects start with grad 0.0. -/
def zeroGrads : Grads := fun _ => 0

/-! ### Concrete scenario graphs used by the claims -/

/-- a = Value(-4.0); b = Value(2.0); c = a + b; d = a*b + b**3.
Indices: a = 0, b = 1, c = 2, a*b = 3, b**3 = 4, d = 5. -/
def c1Graph : Graph :=
  let ga := mkValue [] (-4)
  let gb := mkValue ga.1 2
  let gc := mkAdd gb.1 ga.2 gb.2
  let gm := mkMul gc.1 ga.2 gb.2
  let gp := mkPow gm.1 gb.2 3
  (mkAdd gp.1 gm.2 gp.2).1

/-- a = Value(q); y = a * a.  Indices: a = 0, y = 1. -/
def sqMulGraph (q : ℚ) : Graph := (mkMul (mkValue [] q).1 0 0).1

/-- x = Value(q); y = x ** 2.  Indices: x = 0, y = 1. -/
def sqPowGraph (q : ℚ) : Graph := (mkPow (mkValue [] q).1 0 2).1

/-- x = Value(q); y = x.relu().  Indices: x = 0, y = 1. -/
def reluGraph (q : ℚ) : Graph := (mkRelu (mkValue [] q).1 0).1

/-- a = Value(2); b = Value(3); y = a * b, with distinct operands.
Indices: a = 0, b = 1, y = 2. -/
def mulPairGraph : Graph := (mkMul (mkValue (mkValue [] 2).1 3).1 0 1).1

/-! ### The propagate contract in the words of the spec (section 4.2)

These definitions follow the specification text, not the code: each
operation's propagate shall add local_derivative * result.gradient to each
operand's gradient, where the local derivative is the closed-form table
entry in analytic mode and, in finite-difference mode, the forward
difference in which only the designated operand is perturbed by h. -/

/-- Spec finite-difference rule for the first operand of a binary operation:
perturb only that operand. -/
def fdSlot1 (F : ℚ → ℚ → ℚ) (a b : ℚ) : ℚ := (F (a + hstep) b - F a b) * hstep⁻¹

/-- Spec finite-difference rule for the second operand of a binary
operation: perturb only that operand. -/
def fdSlot2 (F : ℚ → ℚ → ℚ) (a b : ℚ) : ℚ := (F a (b + hstep) - F a b) * hstep⁻¹

/-- Spec finite-difference rule for the operand of a unary operation. -/
def fdUn (F : ℚ → ℚ) (a : ℚ) : ℚ := (F (a + hstep) - F a) * hstep⁻¹

/-- tanh as the spec writes it: (e^{2a} - 1)/(e^{2a} + 1). -/
def tanhQ (E : ℚ → ℚ) (x : ℚ) : ℚ := (E (2 * x) - 1) / (E (2 * x) + 1)

/-- sigmoid as the spec writes it: 1/(1 + e^{-a}). -/
def sigmoidQ (E : ℚ → ℚ) (x : ℚ) : ℚ := (1 + E (-x))⁻¹

/-- The propagate contract of spec section 4.2: for the node v, add to each
operand's gradient the mode-selected local derivative times the result
node's gradient.  mode = true is finite-difference, false is analytic
(matching the polarity of do_autograd). -/
def specStep (E L : ℚ → ℚ) (g : Graph) (mode : Bool) (st : Grads) (v : Nat) : Grads :=
  match opOf g v with
  | .leaf => st
  | .addv i j =>
      let d1 := if mode then fdSlot1 (fun a b => a + b) (dataOf g i) (dataOf g j) else 1
      let d2 := if mode then fdSlot2 (fun a b => a + b) (dataOf g i) (dataOf g j) else 1
      bumpGrad (bumpGrad st i (d1 * st v)) j (d2 * st v)
  | .mulv i j =>
      let d1 := if mode then fdSlot1 (fun a b => a * b) (dataOf g i) (dataOf g j) else dataOf g j
      let d2 := if mode then fdSlot2 (fun a b => a * b) (dataOf g i) (dataOf g j) else dataOf g i
      bumpGrad (bumpGrad st i (d1 * st v)) j (d2 * st v)
  | .powi i p =>
      let d1 := if mode then fdUn (fun a => a ^ p) (dataOf g i)
                else (p : ℚ) * dataOf g i ^ (p - 1)
      bumpGrad st i (d1 * st v)
  | .reluv i =>
      let d1 := if mode then fdUn (fun a => max 0 a) (dataOf g i)
                else if 0 < dataOf g i then 1 else 0
      bumpGrad st i (d1 * st v)
  | .tanhv i =>
      let d1 := if mode then fdUn (tanhQ E) (dataOf g i)
                else 1 - tanhQ E (dataOf g i) ^ 2
      bumpGrad st i (d1 * st v)
  | .sigmoidv i =>
      let d1 := if mode then fdUn (sigmoidQ E) (dataOf g i)
                else sigmoidQ E (dataOf g i) * (1 - sigmoidQ E (dataOf g i))
      bumpGrad st i (d1 * st v)
  | .softplusv i =>
      let d1 := if mode then fdUn (fun a => L (1 + E a)) (dataOf g i)
                else sigmoidQ E (dataOf g i)
      bumpGrad st i (d1 * st v)
  | .expv i =>
      let d1 := if mode then fdUn E (dataOf g i) else E (dataOf g i)
      bumpGrad st i (d1 * st v)

/-- Forward value an operation should have given its operands' data (the
node's own data for a leaf, whose value is free). -/
def opForward (E L : ℚ → ℚ) (g : Graph) (dflt : ℚ) : Op → ℚ
  | .leaf => dflt
  | .addv i j => dataOf g i + dataOf g j
  | .mulv i j => dataOf g i * dataOf g j
  | .powi i p => dataOf g i ^ p
  | .reluv i => max 0 (dataOf g i)
  | .tanhv i => tanhQ E (dataOf g i)
  | .sigmoidv i => sigmoidQ E (dataOf g i)
  | .softplusv i => L (1 + E (dataOf g i))
  | .expv i => E (dataOf g i)

/-- Every node's stored data is the forward value of its operation; holds
for every graph produced by the constructors above. -/
def DataOK (E L : ℚ → ℚ) (g : Graph) : Prop :=
  ∀ i, i < g.length → dataOf g i = opForward E L g (dataOf g i) (opOf g i)

/-- The two operand slots of a binary node hold distinct objects. -/
def distinctOperands (g : Graph) (v : Nat) : Bool :=
  match opOf g v with
  | .addv i j => i != j
  | .mulv i j => i != j
  | _ => true

/-! ### Predicates used by the correctness proofs -/

/-- x is reachable from r through the operand relation. -/
inductive Reachable (g : Graph) (r : Nat) : Nat → Prop
  | refl : Reachable g r r
  | step {u v : Nat} : Reachable g r u → v ∈ prevList g u → Reachable g r v

/-- Invariant of the (visited, topo) state of build_topo. -/
def DfsInv (g : Graph) (vis topo : List Nat) : Prop :=
  topo.Nodup ∧ (∀ x ∈ topo, x ∈ vis) ∧
    (∀ x ∈ topo, ∀ c ∈ prevList g x, c ∈ vis) ∧
    topo.Pairwise (fun a b => b ∉ prevList g a)

/-- What one completed build_topo call guarantees. -/
def DfsSpec (g : Graph) (v : Nat) (vis topo : List Nat)
    (res : List Nat × List Nat) : Prop :=
  (∀ x ∈ vis, x ∈ res.1) ∧
  (∃ t, res.2 = topo ++ t ∧ ∀ x ∈ t, x ∉ vis ∧ Reachable g v x) ∧
  v ∈ res.1 ∧
  (∀ x, (x ∈ res.1 ∧ x ∉ res.2) ↔ (x ∈ vis ∧ x ∉ topo)) ∧
  DfsInv g res.1 res.2 ∧
  (v ∈ vis ∨ ∃ t2, res.2 = topo ++ t2 ++ [v])

/-- What the fold of build_topo over a child list guarantees. -/
def FoldSpec (g : Graph) (L : List Nat) (vis topo : List Nat)
    (res : List Nat × List Nat) : Prop :=
  (∀ x ∈ vis, x ∈ res.1) ∧
  (∃ t, res.2 = topo ++ t ∧ ∀ x ∈ t, x ∉ vis ∧ ∃ c ∈ L, Reachable g c x) ∧
  (∀ c ∈ L, c ∈ res.1) ∧
  (∀ x, (x ∈ res.1 ∧ x ∉ res.2) ↔ (x ∈ vis ∧ x ∉ topo)) ∧
  DfsInv g res.1 res.2

/-- The two states agree on every gradient strictly above index j. -/
def AgreeAbove (j : Nat) (st1 st2 : Grads) : Prop := ∀ i, j < i → st1 i = st2 i

/-- States agree above j and differ by exactly D at j. -/
def GradRel (j : Nat) (D : ℚ) (st1 st2 : Grads) : Prop :=
  AgreeAbove j st1 st2 ∧ st1 j - st2 j = D

/-! ### Basic lemmas -/

theorem hstep_ne_zero : hstep ≠ 0 := by norm_num [hstep]

theorem opOf_eq_leaf_of_le {g : Graph} {v : Nat} (h : g.length ≤ v) :
    opOf g v = .leaf := by
  have hn : g[v]? = none := List.getElem?_eq_none h
  simp [opOf, hn]

theorem wf_children_lt {g : Graph} {v c : Nat} (hwf : WF g)
    (hc : c ∈ (opOf g v).children) : c < v := by
  by_cases hv : v < g.length
  · exact hwf v hv c (List.mem_dedup.2 hc)
  · rw [opOf_eq_leaf_of_le (le_of_not_lt hv)] at hc
    simp [Op.children] at hc

theorem wf_prev_lt {g : Graph} {v c : Nat} (hwf : WF g)
    (hc : c ∈ prevList g v) : c < v :=
  wf_children_lt hwf (List.mem_dedup.1 hc)

theorem bumpGrad_apply_self (st : Grads) (i : Nat) (a : ℚ) :
    bumpGrad st i a i = st i + a := by
  simp [bumpGrad]

theorem bumpGrad_apply_ne (st : Grads) (i k : Nat) (a : ℚ) (hne : k ≠ i) :
    bumpGrad st i a k = st k := by
  simp [bumpGrad, Function.update_noteq hne]

/-! ### The closures implement the spec contract (for distinct operands) -/

theorem fdSlot1_add (x y : ℚ) : fdSlot1 (fun a b => a + b) x y = 1 := by
  rw [fdSlot1, show x + hstep + y - (x + y) = hstep by ring,
    mul_inv_cancel₀ hstep_ne_zero]

theorem fdSlot2_add (x y : ℚ) : fdSlot2 (fun a b => a + b) x y = 1 := by
  rw [fdSlot2, show x + (y + hstep) - (x + y) = hstep by ring,
    mul_inv_cancel₀ hstep_ne_zero]

theorem fdOf_mulF_left (d : Nat → ℚ) {i j : Nat} (hij : i ≠ j) :
    fdOf mulF [i, j] i d = fdSlot1 (fun a b => a * b) (d i) (d j) := by
  simp [fdOf, mulF, fdSlot1, List.getD, Ne.symm hij]

theorem fdOf_mulF_right (d : Nat → ℚ) {i j : Nat} (hij : i ≠ j) :
    fdOf mulF [i, j] j d = fdSlot2 (fun a b => a * b) (d i) (d j) := by
  simp [fdOf, mulF, fdSlot2, List.getD, hij]

/-- C5 (amended): for every supported operation whose binary operand slots
hold distinct objects, the _backward closure realises the spec contract of
section 4.2: in either mode it adds the mode-selected local derivative
(closed-form table entry in analytic mode, the only-wrt-perturbed forward
difference in finite-difference mode) times the result node's gradient to
each operand's gradient.  Addition, whose closure has no mode branch, meets
the finite-difference contract too because the forward difference of a + b
is exactly 1 in exact arithmetic. -/
theorem stepBackward_eq_specStep (E L : ℚ → ℚ) (g : Graph) (flag : Bool) (st : Grads)
    (v : Nat) (hwf : WF g) (hdata : DataOK E L g) (hdist : distinctOperands g v = true) :
    stepBackward E L g flag st v = specStep E L g flag st v := by
  rcases hop : opOf g v with _ | ⟨i, j⟩ | ⟨i, j⟩ | ⟨i, p⟩ | i | i | i | i | i
  case leaf => simp [stepBackward, specStep, hop]
  case addv =>
    have hiv : i < v := wf_children_lt hwf (by rw [hop]; simp [Op.children])
    simp only [stepBackward, specStep, hop]
    cases flag
    · simp [bumpGrad_apply_ne st i v _ (ne_of_gt hiv)]
    · simp [fdSlot1_add, fdSlot2_add, bumpGrad_apply_ne st i v _ (ne_of_gt hiv)]
  case mulv =>
    have hiv : i < v := wf_children_lt hwf (by rw [hop]; simp [Op.children])
    have hij : i ≠ j := by
      have := hdist
      rw [distinctOperands, hop] at this
      simpa using this
    simp only [stepBackward, specStep, hop]
    cases flag
    · simp [bumpGrad_apply_ne st i v _ (ne_of_gt hiv)]
    · simp [fdOf_mulF_left _ hij, fdOf_mulF_right _ hij,
        bumpGrad_apply_ne st i v _ (ne_of_gt hiv)]
  case powi =>
    simp only [stepBackward, specStep, hop]
    cases flag
    · simp
    · simp [fdOf, powF, fdUn, List.getD]
  case reluv =>
    simp only [stepBackward, specStep, hop]
    cases flag
    · simp
    · simp [fdOf, reluF, fdUn, List.getD]
  case tanhv =>
    have hvlen : v < g.length := by
      by_contra hv
      rw [opOf_eq_leaf_of_le (le_of_not_lt hv)] at hop
      simp at hop
    have hd := hdata v hvlen
    rw [hop] at hd
    simp only [opForward] at hd
    simp only [stepBackward, specStep, hop]
    cases flag
    · simp [hd]
    · simp [fdOf, tanhF, fdUn, tanhQ, List.getD]
  case sigmoidv =>
    have hvlen : v < g.length := by
      by_contra hv
      rw [opOf_eq_leaf_of_le (le_of_not_lt hv)] at hop
      simp at hop
    have hd := hdata v hvlen
    rw [hop] at hd
    simp only [opForward] at hd
    simp only [stepBackward, specStep, hop]
    cases flag
    · simp [hd]
    · simp [fdOf, sigmoidF, fdUn, sigmoidQ, List.getD]
  case softplusv =>
    simp only [stepBackward, specStep, hop]
    cases flag
    · simp [sigmoidF, sigmoidQ, List.getD]
    · simp [fdOf, softplusF, fdUn, List.getD]
  case expv =>
    have hvlen : v < g.length := by
      by_contra hv
      rw [opOf_eq_leaf_of_le (le_of_not_lt hv)] at hop
      simp at hop
    have hd := hdata v hvlen
    rw [hop] at hd
    simp only [opForward] at hd
    simp only [stepBackward, specStep, hop]
    cases flag
    · simp [hd]
    · simp [fdOf, expF, fdUn, List.getD]

/-! ### Reachability and correctness of the DFS topological sort -/

theorem reach_le {g : Graph} {r x : Nat} (hwf : WF g) (h : Reachable g r x) : x ≤ r := by
  induction h with
  | refl => exact le_refl r
  | step hu hv ih => exact le_of_lt (lt_of_lt_of_le (wf_prev_lt hwf hv) ih)

theorem reach_trans {g : Graph} {r u x : Nat} (h1 : Reachable g r u)
    (h2 : Reachable g u x) : Reachable g r x := by
  induction h2 with
  | refl => exact h1
  | step hu hv ih => exact .step ih hv

theorem dfsFold_spec (g : Graph) (fuel : Nat)
    (IH : ∀ v vis topo, v < fuel → DfsInv g vis topo →
      DfsSpec g v vis topo (dfsAux g fuel v (vis, topo))) :
    ∀ L : List Nat, (∀ c ∈ L, c < fuel) → ∀ vis topo, DfsInv g vis topo →
      FoldSpec g L vis topo (L.foldl (fun s c => dfsAux g fuel c s) (vis, topo)) := by
  intro L
  induction L with
  | nil =>
      intro _ vis topo hinv
      exact ⟨fun x hx => hx, ⟨[], by simp, by simp⟩, by simp, fun x => Iff.rfl, hinv⟩
  | cons c L ih =>
      intro hL vis topo hinv
      obtain ⟨mono1, ⟨t1, ht1, ht1p⟩, hcvis, hgray1, hinv1, hshape1⟩ :=
        IH c vis topo (hL c (List.mem_cons_self c L)) hinv
      have hfold := ih (fun d hd => hL d (List.mem_cons_of_mem c hd))
        (dfsAux g fuel c (vis, topo)).1 (dfsAux g fuel c (vis, topo)).2 hinv1
      obtain ⟨mono2, ⟨t2, ht2, ht2p⟩, hLin, hgray2, hinv2⟩ := hfold
      have hfoldeq : (c :: L).foldl (fun s c => dfsAux g fuel c s) (vis, topo)
          = L.foldl (fun s c => dfsAux g fuel c s)
              ((dfsAux g fuel c (vis, topo)).1, (dfsAux g fuel c (vis, topo)).2) := by
        simp [List.foldl]
      rw [hfoldeq]
      refine ⟨fun x hx => mono2 x (mono1 x hx), ⟨t1 ++ t2, ?_, ?_⟩, ?_, ?_, hinv2⟩
      · rw [ht2, ht1, List.append_assoc]
      · intro x hx
        rcases List.mem_append.1 hx with hx1 | hx2
        · exact ⟨(ht1p x hx1).1, c, List.mem_cons_self c L, (ht1p x hx1).2⟩
        · refine ⟨fun hxv => (ht2p x hx2).1 (mono1 x hxv), ?_⟩
          obtain ⟨d, hd, hr⟩ := (ht2p x hx2).2
          exact ⟨d, List.mem_cons_of_mem c hd, hr⟩
      · intro d hd
        rcases List.mem_cons.1 hd with rfl | hd2
        · exact mono2 d hcvis
        · exact hLin d hd2
      · intro x
        exact (hgray2 x).trans (hgray1 x)

theorem dfsAux_spec (g : Graph) (hwf : WF g) :
    ∀ fuel v vis topo, v < fuel → DfsInv g vis topo →
      DfsSpec g v vis topo (dfsAux g fuel v (vis, topo)) := by
  intro fuel
  induction fuel with
  | zero => intro v vis topo hv; exact absurd hv (Nat.not_lt_zero v)
  | succ f ihf =>
      intro v vis topo hv hinv
      by_cases hvis : v ∈ vis
      · have hres : dfsAux g (f + 1) v (vis, topo) = (vis, topo) := by
          simp [dfsAux, hvis]
        rw [hres]
        exact ⟨fun x hx => hx, ⟨[], by simp, by simp⟩, hvis, fun x => Iff.rfl, hinv,
          Or.inl hvis⟩
      · have hinv1 : DfsInv g (v :: vis) topo :=
          ⟨hinv.1, fun x hx => List.mem_cons_of_mem v (hinv.2.1 x hx),
            fun x hx c hc => List.mem_cons_of_mem v (hinv.2.2.1 x hx c hc), hinv.2.2.2⟩
        have hchild : ∀ c ∈ prevList g v, c < f := fun c hc =>
          lt_of_lt_of_le (wf_prev_lt hwf hc) (Nat.le_of_lt_succ hv)
        obtain ⟨mono, ⟨t, ht, htp⟩, hallc, hgray, hinvf⟩ :=
          dfsFold_spec g f ihf (prevList g v) hchild (v :: vis) topo hinv1
        have hres : dfsAux g (f + 1) v (vis, topo)
            = (((prevList g v).foldl (fun s c => dfsAux g f c s) (v :: vis, topo)).1,
               ((prevList g v).foldl (fun s c => dfsAux g f c s) (v :: vis, topo)).2 ++ [v]) := by
          simp [dfsAux, hvis]
        rw [hres]
        set s2 := (prevList g v).foldl (fun s c => dfsAux g f c s) (v :: vis, topo) with hs2
        have hreach : ∀ x ∈ t, Reachable g v x := by
          intro x hx
          obtain ⟨c, hc, hr⟩ := (htp x hx).2
          exact reach_trans (.step .refl hc) hr
        have hvnott : v ∉ t := fun hvt => (htp v hvt).1 (List.mem_cons_self v vis)
        have hvnottopo : v ∉ topo := fun hvt => hvis (hinv.2.1 v hvt)
        have hvins2 : v ∈ s2.1 := mono v (List.mem_cons_self v vis)
        refine ⟨fun x hx => mono x (List.mem_cons_of_mem v hx),
          ⟨t ++ [v], by rw [ht, List.append_assoc], ?_⟩, hvins2, ?_, ?_, ?_⟩
        · intro x hx
          rcases List.mem_append.1 hx with hx1 | hx2
          · exact ⟨fun hxv => (htp x hx1).1 (List.mem_cons_of_mem v hxv), hreach x hx1⟩
          · rw [List.mem_singleton.1 hx2]
            exact ⟨hvis, .refl⟩
        · intro x
          constructor
          · rintro ⟨hx1, hx2⟩
            have hxne : x ≠ v := by
              intro hxeq
              exact hx2 (by rw [hxeq]; simp)
            have hx2s : x ∉ s2.2 := fun hm => hx2 (List.mem_append.2 (Or.inl hm))
            have := (hgray x).1 ⟨hx1, hx2s⟩
            exact ⟨(List.mem_cons.1 this.1).resolve_left hxne, this.2⟩
          · rintro ⟨hx1, hx2⟩
            have hxne : x ≠ v := fun hxeq => hvis (hxeq ▸ hx1)
            have := (hgray x).2 ⟨List.mem_cons_of_mem v hx1, hx2⟩
            refine ⟨this.1, fun hm => ?_⟩
            rcases List.mem_append.1 hm with hm1 | hm2
            · exact this.2 hm1
            · exact hxne (List.mem_singleton.1 hm2)
        · -- DfsInv of the final state
          have hvnots2 : v ∉ s2.2 := by
            rw [ht]
            intro hm
            rcases List.mem_append.1 hm with hm1 | hm2
            · exact hvnottopo hm1
            · exact hvnott hm2
          refine ⟨?_, ?_, ?_, ?_⟩
          · rw [List.nodup_append]
            exact ⟨hinvf.1, List.nodup_singleton v, by simpa using hvnots2⟩
          · intro x hx
            rcases List.mem_append.1 hx with hx1 | hx2
            · exact hinvf.2.1 x hx1
            · rw [List.mem_singleton.1 hx2]; exact hvins2
          · intro x hx c hc
            rcases List.mem_append.1 hx with hx1 | hx2
            · exact hinvf.2.2.1 x hx1 c hc
            · rw [List.mem_singleton.1 hx2] at hc
              exact hallc c hc
          · rw [List.pairwise_append]
            refine ⟨hinvf.2.2.2, List.pairwise_singleton _ v, ?_⟩
            intro a ha b hb
            rw [List.mem_singleton.1 hb]
            rw [ht] at ha
            rcases List.mem_append.1 ha with ha1 | ha2
            · intro hva
              exact hvis (hinv.2.2.1 a ha1 v hva)
            · intro hva
              have h1 : v < a := wf_prev_lt hwf hva
              obtain ⟨c, hc, hr⟩ := (htp a ha2).2
              have h2 : a ≤ c := reach_le hwf hr
              have h3 : c < v := wf_prev_lt hwf hc
              omega
        · exact Or.inr ⟨t, by rw [ht]⟩

theorem topoList_dfsSpec (g : Graph) (r : Nat) (hwf : WF g) :
    DfsSpec g r [] [] (dfsAux g (r + 1) r ([], [])) :=
  dfsAux_spec g hwf (r + 1) r [] [] (Nat.lt_succ_self r)
    ⟨List.nodup_nil, by simp, by simp, List.Pairwise.nil⟩

/-- C3: backward() computes a list containing every node reachable from the
root exactly once (Nodup plus the membership-reachability equivalence), in
which every node appears strictly after each of its operands (the index
ordering), with the root last; it then seeds the root gradient with 1.0 and
invokes each listed closure once, iterating that list in reverse, so every
reachable consumer of a node is processed before the node itself. -/
theorem backward_topological_order (g : Graph) (r : Nat) (hwf : WF g) :
    (topoList g r).Nodup ∧
    (∀ v, v ∈ topoList g r ↔ Reachable g r v) ∧
    (∀ i j : Fin (topoList g r).length,
      (topoList g r).get j ∈ prevList g ((topoList g r).get i) → (j : ℕ) < (i : ℕ)) ∧
    (topoList g r).getLast? = some r ∧
    (∀ (E L : ℚ → ℚ) (flag : Bool) (st : Grads), backward E L g flag st r =
      (topoList g r).reverse.foldl (stepBackward E L g flag) (Function.update st r 1)) := by
  obtain ⟨mono, ⟨t, ht, htp⟩, hrin, hgray, hinv, hshape⟩ := topoList_dfsSpec g r hwf
  have htopo : topoList g r = (dfsAux g (r + 1) r ([], [])).2 := rfl
  have hmem : ∀ v, v ∈ topoList g r ↔ Reachable g r v := by
    intro v
    constructor
    · intro hv
      rw [htopo, ht] at hv
      simp at hv
      exact (htp v hv).2
    · intro hv
      induction hv with
      | refl =>
          by_contra hnot
          have := (hgray r).1 ⟨hrin, hnot⟩
          simp at this
      | step hu hc ih =>
          rename_i u w
          have hw : w ∈ (dfsAux g (r + 1) r ([], [])).1 := hinv.2.2.1 u ih _ hc
          by_contra hnot
          have := (hgray w).1 ⟨hw, hnot⟩
          simp at this
  refine ⟨hinv.1, hmem, ?_, ?_, fun E L flag st => rfl⟩
  · intro i j hmemprev
    by_contra hnot
    push_neg at hnot
    rcases Nat.lt_or_ge (i : ℕ) (j : ℕ) with hij | hij
    · have hpw := List.pairwise_iff_get.1 hinv.2.2.2 i j hij
      exact hpw hmemprev
    · have hieqj : (i : ℕ) = (j : ℕ) := le_antisymm hnot hij
      have : (topoList g r).get i = (topoList g r).get j := by
        congr 1
        exact Fin.ext hieqj
      rw [← this] at hmemprev
      exact absurd (wf_prev_lt hwf hmemprev) (lt_irrefl _)
  · rcases hshape with hin | ⟨t2, ht2⟩
    · simp at hin
    · rw [htopo, ht2]
      simp

/-! ### Frame and accumulation structure of the backward pass -/

theorem bump_rel_eq {j t : Nat} {st1 st2 : Grads} {a D : ℚ}
    (hA : AgreeAbove j st1 st2) (hD : st1 j - st2 j = D) :
    AgreeAbove j (bumpGrad st1 t a) (bumpGrad st2 t a) ∧
      bumpGrad st1 t a j - bumpGrad st2 t a j = D := by
  constructor
  · intro i hi
    by_cases hit : i = t
    · subst hit
      rw [bumpGrad_apply_self, bumpGrad_apply_self, hA i hi]
    · rw [bumpGrad_apply_ne _ _ _ _ hit, bumpGrad_apply_ne _ _ _ _ hit]
      exact hA i hi
  · by_cases hjt : j = t
    · subst hjt
      rw [bumpGrad_apply_self, bumpGrad_apply_self]
      linarith
    · rw [bumpGrad_apply_ne _ _ _ _ hjt, bumpGrad_apply_ne _ _ _ _ hjt]
      exact hD

theorem bump_rel_low {j t : Nat} {st1 st2 : Grads} {a1 a2 D : ℚ}
    (hA : AgreeAbove j st1 st2) (hD : st1 j - st2 j = D) (ht : t < j) :
    AgreeAbove j (bumpGrad st1 t a1) (bumpGrad st2 t a2) ∧
      bumpGrad st1 t a1 j - bumpGrad st2 t a2 j = D := by
  constructor
  · intro i hi
    have hit : i ≠ t := by omega
    rw [bumpGrad_apply_ne _ _ _ _ hit, bumpGrad_apply_ne _ _ _ _ hit]
    exact hA i hi
  · have hjt : j ≠ t := by omega
    rw [bumpGrad_apply_ne _ _ _ _ hjt, bumpGrad_apply_ne _ _ _ _ hjt]
    exact hD

theorem rel_one_bump {j v t : Nat} {D : ℚ} {st1 st2 : Grads} (f : ℚ → ℚ)
    (ht : t < v) (h : GradRel j D st1 st2) :
    GradRel j D (bumpGrad st1 t (f (st1 v))) (bumpGrad st2 t (f (st2 v))) := by
  by_cases hvj : j < v
  · have hsv : st1 v = st2 v := h.1 v hvj
    rw [hsv]
    exact ⟨(bump_rel_eq h.1 h.2).1, (bump_rel_eq h.1 h.2).2⟩
  · exact ⟨(bump_rel_low h.1 h.2 (by omega)).1, (bump_rel_low h.1 h.2 (by omega)).2⟩

theorem stepBackward_rel (E L : ℚ → ℚ) (g : Graph) (flag : Bool) (hwf : WF g)
    {j : Nat} {D : ℚ} (v : Nat) {st1 st2 : Grads} (h : GradRel j D st1 st2) :
    GradRel j D (stepBackward E L g flag st1 v) (stepBackward E L g flag st2 v) := by
  rcases hop : opOf g v with _ | ⟨i, j2⟩ | ⟨i, j2⟩ | ⟨i, p⟩ | i | i | i | i | i
  case leaf => simp only [stepBackward, hop]; exact h
  case addv =>
    have hi : i < v := wf_children_lt hwf (by rw [hop]; simp [Op.children])
    have hj2 : j2 < v := wf_children_lt hwf (by rw [hop]; simp [Op.children])
    simp only [stepBackward, hop]
    exact rel_one_bump (fun x => x) hj2 (rel_one_bump (fun x => x) hi h)
  case mulv =>
    have hi : i < v := wf_children_lt hwf (by rw [hop]; simp [Op.children])
    have hj2 : j2 < v := wf_children_lt hwf (by rw [hop]; simp [Op.children])
    simp only [stepBackward, hop]
    cases flag
    · simp only [if_neg Bool.false_ne_true]
      exact rel_one_bump (fun x => dataOf g i * x) hj2
        (rel_one_bump (fun x => dataOf g j2 * x) hi h)
    · simp only [if_pos rfl]
      exact rel_one_bump (fun x => fdOf mulF [i, j2] j2 (dataOf g) * x) hj2
        (rel_one_bump (fun x => fdOf mulF [i, j2] i (dataOf g) * x) hi h)
  case powi =>
    have hi : i < v := wf_children_lt hwf (by rw [hop]; simp [Op.children])
    simp only [stepBackward, hop]
    cases flag
    · simp only [if_neg Bool.false_ne_true]
      exact rel_one_bump (fun x => (p : ℚ) * dataOf g i ^ (p - 1) * x) hi h
    · simp only [if_pos rfl]
      exact rel_one_bump (fun x => fdOf (powF p) [i] i (dataOf g) * x) hi h
  case reluv =>
    have hi : i < v := wf_children_lt hwf (by rw [hop]; simp [Op.children])
    simp only [stepBackward, hop]
    cases flag
    · simp only [if_neg Bool.false_ne_true]
      exact rel_one_bump (fun x => (if 0 < dataOf g i then (1 : ℚ) else 0) * x) hi h
    · simp only [if_pos rfl]
      exact rel_one_bump (fun x => fdOf reluF [i] i (dataOf g) * x) hi h
  case tanhv =>
    have hi : i < v := wf_children_lt hwf (by rw [hop]; simp [Op.children])
    simp only [stepBackward, hop]
    cases flag
    · simp only [if_neg Bool.false_ne_true]
      exact rel_one_bump (fun x => (1 - dataOf g v ^ 2) * x) hi h
    · simp only [if_pos rfl]
      exact rel_one_bump (fun x => fdOf (tanhF E) [i] i (dataOf g) * x) hi h
  case sigmoidv =>
    have hi : i < v := wf_children_lt hwf (by rw [hop]; simp [Op.children])
    simp only [stepBackward, hop]
    cases flag
    · simp only [if_neg Bool.false_ne_true]
      exact rel_one_bump (fun x => dataOf g v * (1 - dataOf g v) * x) hi h
    · simp only [if_pos rfl]
      exact rel_one_bump (fun x => fdOf (sigmoidF E) [i] i (dataOf g) * x) hi h
  case softplusv =>
    have hi : i < v := wf_children_lt hwf (by rw [hop]; simp [Op.children])
    simp only [stepBackward, hop]
    cases flag
    · simp only [if_neg Bool.false_ne_true]
      exact rel_one_bump (fun x => sigmoidF E [dataOf g i] * x) hi h
    · simp only [if_pos rfl]
      exact rel_one_bump (fun x => fdOf (softplusF E L) [i] i (dataOf g) * x) hi h
  case expv =>
    have hi : i < v := wf_children_lt hwf (by rw [hop]; simp [Op.children])
    simp only [stepBackward, hop]
    cases flag
    · simp only [if_neg Bool.false_ne_true]
      exact rel_one_bump (fun x => dataOf g v * x) hi h
    · simp only [if_pos rfl]
      exact rel_one_bump (fun x => fdOf (expF E) [i] i (dataOf g) * x) hi h

theorem foldl_step_rel (E L : ℚ → ℚ) (g : Graph) (flag : Bool) (hwf : WF g)
    {j : Nat} {D : ℚ} :
    ∀ (Lst : List Nat) {st1 st2 : Grads}, GradRel j D st1 st2 →
      GradRel j D (Lst.foldl (stepBackward E L g flag) st1)
        (Lst.foldl (stepBackward E L g flag) st2) := by
  intro Lst
  induction Lst with
  | nil => intro st1 st2 h; exact h
  | cons v Lst ih =>
      intro st1 st2 h
      exact ih (stepBackward_rel E L g flag hwf v h)

theorem backward_shift (E L : ℚ → ℚ) (g : Graph) (flag : Bool) (st : Grads)
    (r j : Nat) (x : ℚ) (hwf : WF g) (hj : j ≠ r) :
    backward E L g flag (Function.update st j x) r j
      = x + (backward E L g flag st r j - st j) := by
  have hinit : GradRel j (x - st j)
      (Function.update (Function.update st j x) r 1) (Function.update st r 1) := by
    constructor
    · intro i hi
      have hij : i ≠ j := by omega
      by_cases hir : i = r
      · subst hir
        rw [Function.update_same, Function.update_same]
      · rw [Function.update_noteq hir, Function.update_noteq hir,
          Function.update_noteq hij]
    · rw [Function.update_noteq hj, Function.update_noteq hj, Function.update_same]
  have hfin := foldl_step_rel E L g flag hwf (topoList g r).reverse hinit
  have := hfin.2
  unfold backward
  linarith

/-! ### The claims -/


/-- C1, counterexample: in the end-to-end scenario run under the engine's
default flag (finite-difference mode), the gradient of b is not exactly 8:
the cube's forward difference carries a truncation error of 6h + h^2. -/
theorem scenario_grad_b_not_exactly_eight :
    backward id id c1Graph doAutogradDefault zeroGrads 5 1 ≠ 8 := by
  simp [backward, topoList, dfsAux, c1Graph, mkValue, mkAdd, mkMul, mkPow, prevList,
    opOf, Op.children, dataOf, stepBackward, bumpGrad, fdOf, mulF, powF,
    doAutogradDefault, zeroGrads, Function.update, hstep]
  norm_num

/-- C1 (amended): with a = -4.0 and b = 2.0, c = a + b has forward value
-2.0 and d = a*b + b**3 has forward value 0.0; after d.backward() under the
default finite-difference mode, in exact arithmetic the gradient of a is
exactly 2.0 while the gradient of b is 8 + 6h + h^2, i.e. 8 only up to the
forward-difference truncation error of the b**3 term. -/
theorem scenario_forward_and_grads_exact :
    dataOf c1Graph 2 = -2 ∧ dataOf c1Graph 5 = 0 ∧
    backward id id c1Graph doAutogradDefault zeroGrads 5 0 = 2 ∧
    backward id id c1Graph doAutogradDefault zeroGrads 5 1
      = 8 + 6 * hstep + hstep ^ 2 := by
  refine ⟨?_, ?_, ?_, ?_⟩ <;>
  · simp [backward, topoList, dfsAux, c1Graph, mkValue, mkAdd, mkMul, mkPow, prevList,
      opOf, Op.children, dataOf, stepBackward, bumpGrad, fdOf, mulF, powF,
      doAutogradDefault, zeroGrads, Function.update, hstep]
    norm_num

/-- C2, code evaluation at the failing input: building y = a * a with
a.data = 3 and running y.backward() under the default flag yields
a.grad = 12 + 2h (the closure perturbs both aliased occurrences of a inside
_autograd and then adds that doubled derivative twice), not 2 * a.data = 6;
the analytic branch of the same closure yields the correct 6. -/
theorem aliased_square_grad_double_counts :
    backward id id (sqMulGraph 3) doAutogradDefault zeroGrads 1 0
      = 12 + 2 * hstep ∧
    (12 + 2 * hstep : ℚ) ≠ 2 * 3 ∧
    backward id id (sqMulGraph 3) false zeroGrads 1 0 = 2 * 3 := by
  refine ⟨?_, by norm_num [hstep], ?_⟩ <;>
  · simp [backward, topoList, dfsAux, sqMulGraph, mkMul, mkValue, prevList, opOf,
      Op.children, dataOf, stepBackward, bumpGrad, fdOf, mulF, doAutogradDefault,
      zeroGrads, Function.update, hstep]
    norm_num

/-- C3, witness at the end-to-end scenario graph with root d = 5. -/
theorem backward_topological_order_witness :
    WF c1Graph ∧
    ((topoList c1Graph 5).Nodup ∧
     (∀ v, v ∈ topoList c1Graph 5 ↔ Reachable c1Graph 5 v) ∧
     (∀ i j : Fin (topoList c1Graph 5).length,
       (topoList c1Graph 5).get j ∈ prevList c1Graph ((topoList c1Graph 5).get i) →
         (j : ℕ) < (i : ℕ)) ∧
     (topoList c1Graph 5).getLast? = some 5 ∧
     (∀ (E L : ℚ → ℚ) (flag : Bool) (st : Grads),
       backward E L c1Graph flag st 5 =
         (topoList c1Graph 5).reverse.foldl (stepBackward E L c1Graph flag)
           (Function.update st 5 1))) :=
  ⟨by decide, backward_topological_order c1Graph 5 (by decide)⟩

/-- C4, counterexample: the flag defaults to True, and under that default
the propagate closure of y = x ** 2 at x = 1 contributes the forward
difference 2 + h, not the closed-form derivative 2. -/
theorem default_flag_not_analytic :
    doAutogradDefault = true ∧
    backward id id (sqPowGraph 1) doAutogradDefault zeroGrads 1 0 = 2 + hstep ∧
    (2 + hstep : ℚ) ≠ 2 := by
  refine ⟨rfl, ?_, by norm_num [hstep]⟩
  simp [backward, topoList, dfsAux, sqPowGraph, mkPow, mkValue, prevList, opOf,
    Op.children, dataOf, stepBackward, bumpGrad, fdOf, powF, doAutogradDefault,
    zeroGrads, Function.update, hstep]
  norm_num

/-- C4 (amended): do_autograd defaults to True, which selects the
finite-difference mode: with the flag left at its initial value the
propagate closure of a square node contributes the forward difference
2q + h rather than the closed-form 2q (and h is not 0). -/
theorem default_flag_is_finite_difference :
    doAutogradDefault = true ∧
    (∀ q : ℚ, backward id id (sqPowGraph q) doAutogradDefault zeroGrads 1 0
      = 2 * q + hstep) ∧
    hstep ≠ 0 := by
  refine ⟨rfl, ?_, hstep_ne_zero⟩
  intro q
  simp [backward, topoList, dfsAux, sqPowGraph, mkPow, mkValue, prevList, opOf,
    Op.children, dataOf, stepBackward, bumpGrad, fdOf, powF, doAutogradDefault,
    zeroGrads, Function.update, zpow_two]
  field_simp [hstep]
  ring

/-- C5, counterexample: when both operand slots of a multiplication alias
one object (y = a * a with a.data = 1), the finite-difference branch of the
closure adds 2 * (2 + h) in total, while the spec contract (perturb only the
designated operand, add that local derivative times the result gradient per
operand) prescribes a total of 2. -/
theorem aliased_mul_violates_contract :
    stepBackward id id (sqMulGraph 1) true (Function.update zeroGrads 1 1) 1 0
      = 4 + 2 * hstep ∧
    specStep id id (sqMulGraph 1) true (Function.update zeroGrads 1 1) 1 0 = 2 ∧
    (4 + 2 * hstep : ℚ) ≠ 2 := by
  refine ⟨?_, ?_, by norm_num [hstep]⟩
  · simp [stepBackward, sqMulGraph, mkMul, mkValue, opOf, dataOf, bumpGrad, fdOf,
      mulF, zeroGrads, Function.update, hstep]
    norm_num
  · simp [specStep, sqMulGraph, mkMul, mkValue, opOf, dataOf, bumpGrad, fdSlot1,
      fdSlot2, zeroGrads, Function.update, hstep]
    norm_num

/-- C5, witness at a multiplication node with distinct operands. -/
theorem stepBackward_eq_specStep_witness :
    WF mulPairGraph ∧ DataOK id id mulPairGraph ∧
    distinctOperands mulPairGraph 2 = true ∧
    stepBackward id id mulPairGraph true zeroGrads 2
      = specStep id id mulPairGraph true zeroGrads 2 := by
  have hdata : DataOK id id mulPairGraph := by
    intro i hi
    simp [mulPairGraph, mkMul, mkValue] at hi
    interval_cases i <;>
      simp [mulPairGraph, mkMul, mkValue, dataOf, opOf, opForward]
  exact ⟨by decide, hdata, by decide,
    stepBackward_eq_specStep id id mulPairGraph true zeroGrads 2 (by decide) hdata
      (by decide)⟩



/-- C6, counterexample: one and the same already-built graph (y = x ** 2,
x = 3) propagates the finite-difference derivative 6 + h when the flag is
True at backward time and the analytic derivative 6 when it is False, so
the strategy used is decided by the flag at the time the backward pass
runs, not by any value the flag had when the node was constructed (graph
construction records no flag at all). -/
theorem strategy_depends_on_backward_time_flag :
    backward id id (sqPowGraph 3) true zeroGrads 1 0 = 6 + hstep ∧
    backward id id (sqPowGraph 3) false zeroGrads 1 0 = 6 ∧
    (6 + hstep : ℚ) ≠ 6 := by
  refine ⟨?_, ?_, by norm_num [hstep]⟩ <;>
  · simp [backward, topoList, dfsAux, sqPowGraph, mkPow, mkValue, prevList, opOf,
      Op.children, dataOf, stepBackward, bumpGrad, fdOf, powF, zeroGrads,
      Function.update, hstep]
    norm_num

/-- C6 (amended): the closures read the process-wide flag when they are
invoked, so for a node built at any earlier time the derivative strategy of
a later backward pass is the flag's value at the time that pass runs. -/
theorem strategy_is_flag_at_backward_time :
    ∀ (q : ℚ) (flag : Bool),
      backward id id (sqPowGraph q) flag zeroGrads 1 0
        = if flag then 2 * q + hstep else 2 * q := by
  intro q flag
  cases flag
  · simp [backward, topoList, dfsAux, sqPowGraph, mkPow, mkValue, prevList, opOf,
      Op.children, dataOf, stepBackward, bumpGrad, zeroGrads, Function.update]
  · simp [backward, topoList, dfsAux, sqPowGraph, mkPow, mkValue, prevList, opOf,
      Op.children, dataOf, stepBackward, bumpGrad, fdOf, powF, zeroGrads,
      Function.update, zpow_two]
    field_simp [hstep]
    ring

/-- C7, counterexample: relu of a node holding exactly 0.0 does yield
forward value 0.0, but under the engine's default (finite-difference) mode
the derivative propagated to the operand is exactly 1, not 0:
(max(0, 0 + h) - max(0, 0)) / h = 1. -/
theorem relu_zero_fd_derivative_one :
    dataOf (reluGraph 0) 1 = 0 ∧
    backward id id (reluGraph 0) doAutogradDefault zeroGrads 1 0 = 1 ∧
    (1 : ℚ) ≠ 0 := by
  refine ⟨?_, ?_, one_ne_zero⟩
  · simp [reluGraph, mkRelu, mkValue, dataOf]
  · simp [backward, topoList, dfsAux, reluGraph, mkRelu, mkValue, prevList, opOf,
      Op.children, dataOf, stepBackward, bumpGrad, fdOf, reluF, doAutogradDefault,
      zeroGrads, Function.update, hstep]

/-- C7 (amended): relu at exactly 0.0 yields forward value 0.0; the local
derivative propagated to the operand is 0 in analytic mode
(do_autograd = False) but exactly 1 under the default finite-difference
mode. -/
theorem relu_zero_derivative_by_mode :
    dataOf (reluGraph 0) 1 = 0 ∧
    backward id id (reluGraph 0) false zeroGrads 1 0 = 0 ∧
    backward id id (reluGraph 0) true zeroGrads 1 0 = 1 := by
  refine ⟨?_, ?_, ?_⟩
  · simp [reluGraph, mkRelu, mkValue, dataOf]
  · simp [backward, topoList, dfsAux, reluGraph, mkRelu, mkValue, prevList, opOf,
      Op.children, dataOf, stepBackward, bumpGrad, zeroGrads, Function.update]
  · simp [backward, topoList, dfsAux, reluGraph, mkRelu, mkValue, prevList, opOf,
      Op.children, dataOf, stepBackward, bumpGrad, fdOf, reluF, zeroGrads,
      Function.update, hstep]

/-- C8, counterexample: with the plain int exponent -1 and base value 0.0,
a ** -1 raises (Python's ZeroDivisionError from 0.0 ** -1), refuting the
part of the claim that an int or float exponent never raises. -/
theorem pow_zero_base_negative_exponent_raises :
    powOp (mkValue [] 0).1 0 (.num (-1)) = .error .zeroDivision := by
  simp [powOp, mkValue, dataOf]

/-- C8 (amended): a ** e with a node exponent fails immediately with
UnsupportedOperand, before any result node is allocated; with an int
exponent the call allocates the result node and raises nothing unless the
base is 0 and the exponent negative, in which case it raises
ZeroDivisionError, again before allocating. -/
theorem pow_error_behaviour :
    (∀ (g : Graph) (i k : Nat), powOp g i (.node k) = .error .unsupportedOperand) ∧
    (∀ (g : Graph) (i : Nat) (p : ℤ), ¬(dataOf g i = 0 ∧ p < 0) →
      powOp g i (.num p) = .ok (mkPow g i p)) ∧
    (∀ (g : Graph) (i : Nat) (p : ℤ), dataOf g i = 0 → p < 0 →
      powOp g i (.num p) = .error .zeroDivision) := by
  refine ⟨fun g i k => rfl, fun g i p hp => ?_, fun g i p h0 hp => ?_⟩
  · simp [powOp, hp]
  · simp [powOp, h0, hp]

/-- C8, witness: the successful and the zero-division branches at concrete
inputs. -/
theorem pow_error_behaviour_witness :
    (¬(dataOf c1Graph 1 = 0 ∧ (3 : ℤ) < 0) ∧
      powOp c1Graph 1 (.num 3) = .ok (mkPow c1Graph 1 3)) ∧
    (dataOf (mkValue [] 0).1 0 = 0 ∧ (-1 : ℤ) < 0 ∧
      powOp (mkValue [] 0).1 0 (.num (-1)) = .error .zeroDivision) := by
  have hp : ¬(dataOf c1Graph 1 = 0 ∧ (3 : ℤ) < 0) := fun h => absurd h.2 (by norm_num)
  have h0 : dataOf (mkValue [] 0).1 0 = 0 := by simp [mkValue, dataOf]
  exact ⟨⟨hp, pow_error_behaviour.2.1 c1Graph 1 3 hp⟩,
    ⟨h0, by norm_num, pow_error_behaviour.2.2 (mkValue [] 0).1 0 (-1) h0 (by norm_num)⟩⟩

/-- C9: backward() assigns only the root's gradient (setting it to 1.0);
the gradient of every other node j is changed purely by accumulation: the
amount the pass adds to j does not depend on j's current gradient, so
shifting j's starting gradient by any amount shifts its final gradient by
exactly that amount.  Consequently a second backward pass over the same
graph silently deposits a complete new set of contributions on top of the
old ones: for y = a * a with a.data = 3 in analytic mode, one pass gives
a.grad = 6 and a second pass 12, with no error raised. -/
theorem backward_accumulates_nonroot_grads :
    (∀ (E L : ℚ → ℚ) (g : Graph) (flag : Bool) (st : Grads) (r j : Nat) (x : ℚ),
      WF g → j ≠ r →
      backward E L g flag (Function.update st j x) r j
        = x + (backward E L g flag st r j - st j)) ∧
    backward id id (sqMulGraph 3) false zeroGrads 1 0 = 6 ∧
    backward id id (sqMulGraph 3) false
      (backward id id (sqMulGraph 3) false zeroGrads 1) 1 0 = 12 := by
  refine ⟨fun E L g flag st r j x hwf hj => backward_shift E L g flag st r j x hwf hj,
    ?_, ?_⟩ <;>
  · simp [backward, topoList, dfsAux, sqMulGraph, mkMul, mkValue, prevList, opOf,
      Op.children, dataOf, stepBackward, bumpGrad, zeroGrads, Function.update]
    norm_num

/-- C9, witness: the accumulation shift at a concrete graph, non-root
node 0 and shift 5. -/
theorem backward_accumulates_nonroot_grads_witness :
    WF (sqMulGraph 3) ∧ (0 : Nat) ≠ 1 ∧
    backward id id (sqMulGraph 3) false (Function.update zeroGrads 0 5) 1 0
      = 5 + (backward id id (sqMulGraph 3) false zeroGrads 1 0 - zeroGrads 0) :=
  ⟨by decide, by decide,
    backward_accumulates_nonroot_grads.1 id id (sqMulGraph 3) false zeroGrads 1 0 5
      (by decide) (by decide)⟩

/-- C10: when both operand slots of a binary operation hold the same object
(y = a * a), set(_children) collapses them: the result node's operand set
is exactly the one-element list containing a, the topological list of a
backward pass from y visits a exactly once, and yet the closure of y still
performs two separate additions to the gradient of a, each of the full
per-occurrence derivative (2q + h in the default finite-difference mode, q
in analytic mode). -/
theorem aliased_operands_collapse_in_prev :
    ∀ q : ℚ,
      prevList (sqMulGraph q) 1 = [0] ∧
      (topoList (sqMulGraph q) 1).count 0 = 1 ∧
      ∀ (flag : Bool) (st : Grads),
        stepBackward id id (sqMulGraph q) flag st 1 0
          = st 0 + (if flag then 2 * q + hstep else q) * st 1
                 + (if flag then 2 * q + hstep else q) * st 1 := by
  intro q
  refine ⟨rfl, rfl, ?_⟩
  intro flag st
  cases flag
  · simp [stepBackward, sqMulGraph, mkMul, mkValue, opOf, dataOf, bumpGrad,
      Function.update]
  · simp [stepBackward, sqMulGraph, mkMul, mkValue, opOf, dataOf, bumpGrad,
      fdOf, mulF, Function.update]
    field_simp [hstep]
    ring
end Micrograd
